import Mathlib

/-!
Shallow embedding of `convert.py` from DaveLogs/CLOVAOCR2TDS.

The program converts CLOVA OCR recognition output into (a) per-field cropped
images with a flat label file and (b) LabelMe-style annotation documents.
External collaborators (the HTTP recognition call, image decode/crop/save,
directory listing) are out of the core per the spec; recognition results and
image dimensions therefore appear as inputs of the model, and filesystem
effects are recorded explicitly in the result of `run`.

Coordinates are modelled as `Int` (the spec allows integer or float pixel
coordinates; every claim is about comparisons, min/max and subtraction, which
behave identically). Strings (filenames, labels) are modelled as `List Char`.
-/

namespace Clova

/-- One vertex of a field's bounding polygon (`boundingPoly.vertices` entry). -/
structure Point where
  x : Int
  y : Int
deriving DecidableEq

/-- Axis-aligned bounding box. `get_bbox` in the source returns the list
`[left, upper, right, lower]`; the structure fields keep that order. -/
structure Box where
  left : Int
  upper : Int
  right : Int
  lower : Int
deriving DecidableEq

/-- One detected text region of the recognition result: `inferText` plus the
`boundingPoly.vertices` polygon. -/
structure Field where
  inferText : List Char
  vertices : List Point
deriving DecidableEq

/-- Errors of the pipeline, named as in the spec's error taxonomy (§7).
`invalidPolygonError` stands for the `ValueError` Python's `min` raises on an
empty sequence; `filenameFormatError` for the `ValueError` raised by unpacking
`file_name.split('.')` into two variables when the filename does not have
exactly one dot; `fileExistsError` for the `FileExistsError` raised by
`os.makedirs` when the output path exists but is not a directory. -/
inductive PipelineError where
  | inputNotFoundError
  | outputAlreadyExistsError
  | invalidPolygonError
  | filenameFormatError
  | fileExistsError
deriving DecidableEq

/-- `get_bbox(points)`: `left = min(p["x"] for p in points)` and so on.
Python's `min`/`max` over the empty sequence raise `ValueError`, which the
spec names `InvalidPolygonError`. The fold over the tail with the head as
initial accumulator is exactly the min/max of a nonempty sequence. -/
def get_bbox (points : List Point) : Except PipelineError Box :=
  match points with
  | [] => .error .invalidPolygonError
  | p :: ps =>
      .ok { left  := ps.foldl (fun m q => min m q.x) p.x
          , upper := ps.foldl (fun m q => min m q.y) p.y
          , right := ps.foldl (fun m q => max m q.x) p.x
          , lower := ps.foldl (fun m q => max m q.y) p.y }

/-- `valid_crop_size(bbox, size)`: reject when `bbox[2] - bbox[0] < size or
bbox[3] - bbox[1] < size`, accept otherwise. -/
def valid_crop_size (bbox : Box) (size : Int) : Bool :=
  if bbox.right - bbox.left < size ∨ bbox.lower - bbox.upper < size then
    false
  else
    true

/-- Python's `str.split(sep)` for a one-character separator: `pySplit c s`
returns the (always nonempty) list of chunks of `s` between occurrences
of `c`. -/
def pySplit (c : Char) : List Char → List (List Char)
  | [] => [[]]
  | a :: as =>
      if a = c then
        [] :: pySplit c as
      else
        match pySplit c as with
        | [] => [[a]]
        | h :: t => (a :: h) :: t

/-- `name, ext = file_name.split('.')`: the two-variable unpacking succeeds
exactly when the split yields two chunks (exactly one dot); otherwise Python
raises `ValueError`, which the spec taxonomy names `FilenameFormatError`. -/
def split_filename (file_name : List Char) :
    Except PipelineError (List Char × List Char) :=
  match pySplit '.' file_name with
  | [name, ext] => .ok (name, ext)
  | _ => .error .filenameFormatError

/-- Fuelled digit renderer: with fuel above `n` this is the decimal rendering
of `n`, most significant digit first. The fuel only makes the recursion
structural so that the definition computes by `rfl`. -/
def toDecimalAux : Nat → Nat → List Char
  | 0, _ => []
  | fuel + 1, n =>
      if n < 10 then
        [Nat.digitChar n]
      else
        toDecimalAux fuel (n / 10) ++ [Nat.digitChar (n % 10)]

/-- Decimal rendering of a natural number, most significant digit first,
as produced by Python's `"%d"` formatting of a nonnegative integer. -/
def toDecimal (n : Nat) : List Char := toDecimalAux (n + 1) n

/-- Python's `f"{jj:03d}"` for a nonnegative `jj`: the decimal digits,
left-padded with `'0'` to a minimum width of 3. -/
def pad3 (n : Nat) : List Char :=
  List.replicate (3 - (toDecimal n).length) '0' ++ toDecimal n

/-- The crop filename `f"{name}_{jj:03d}.{ext}"` from the per-field loop. -/
def cropFileName (name ext : List Char) (jj : Nat) : List Char :=
  name ++ '_' :: (pad3 jj ++ '.' :: ext)

/-- One LabelMe shape entry, built per accepted field (`shapes_dict` in the
source). `flags` is the constant empty dict and is omitted. -/
structure Shape where
  label : List Char
  points : List (List Int)
  group_id : Option Int
  shape_type : List Char
deriving DecidableEq

/-- The `shapes_dict` built for an accepted field: `points` is
`[[bbox[0], bbox[1]], [bbox[2], bbox[3]]]`, `group_id` is `None`,
`shape_type` is `"rectangle"`. -/
def mkShape (label : List Char) (bbox : Box) : Shape :=
  { label := label
  , points := [[bbox.left, bbox.upper], [bbox.right, bbox.lower]]
  , group_id := none
  , shape_type := "rectangle".toList }

/-- The per-image LabelMe document (`json_dict` in the source). The constant
top-level `flags` empty dict is omitted; the remaining keys appear in source
order. -/
structure AnnotationDoc where
  version : List Char
  shape_type : List Char
  shapes : List Shape
  imagePath : List Char
  imageData : Option (List Char)
  imageHeight : Int
  imageWidth : Int
deriving DecidableEq

/-- One discovered input image together with the data the external
collaborators provide for it: the recognition result's field list
(`json_data["images"][0]["fields"]`) and the image dimensions
(`img.size`). -/
structure InputFile where
  file_name : List Char
  fields : List Field
  imageWidth : Int
  imageHeight : Int
deriving DecidableEq

/-- Whether the per-field loop accepts a field: its bounding box exists and
passes `valid_crop_size`. (When `get_bbox` fails the loop aborts instead;
`processFieldsAux` accounts for that.) -/
def field_accepted (f : Field) (min_image_size : Int) : Bool :=
  match get_bbox f.vertices with
  | .ok bbox => valid_crop_size bbox min_image_size
  | .error _ => false

/-- The per-field loop of `run` (lines 121–141): `jj` enumerates the fields
of the recognition result pre-filter; each accepted field appends one label
line `(cropped_file, label)` and one shape, in lockstep. A `get_bbox` failure
aborts the loop, keeping the label lines already written (the third component
records the error; the shapes accumulated so far are discarded by the caller
because the document is never written). -/
def processFieldsAux (name ext : List Char) (min_image_size : Int) :
    Nat → List Field →
      List (List Char × List Char) × List Shape × Option PipelineError
  | _, [] => ([], [], none)
  | jj, f :: rest =>
      match get_bbox f.vertices with
      | .error e => ([], [], some e)
      | .ok bbox =>
          if valid_crop_size bbox min_image_size then
            match processFieldsAux name ext min_image_size (jj + 1) rest with
            | (crops, shapes, err) =>
                ((cropFileName name ext jj, f.inferText) :: crops,
                 mkShape f.inferText bbox :: shapes, err)
          else
            processFieldsAux name ext min_image_size (jj + 1) rest

/-- Processing of one input file inside `run`'s main loop: split the filename
(raises on anything but exactly one dot), run the per-field loop, and on
success write the per-image document. Returns the label lines written for
this file and either the document or the error that aborted the loop. -/
def processFile (file : InputFile) (min_image_size : Int) :
    List (List Char × List Char) × Except PipelineError AnnotationDoc :=
  match split_filename file.file_name with
  | .error e => ([], .error e)
  | .ok (_name, _ext) =>
      match processFieldsAux _name _ext min_image_size 0 file.fields with
      | (crops, _, some e) => (crops, .error e)
      | (crops, shapes, none) =>
          (crops,
           .ok { version := "4.5.9".toList
               , shape_type := "rectangle".toList
               , shapes := shapes
               , imagePath := file.file_name
               , imageData := none
               , imageHeight := file.imageHeight
               , imageWidth := file.imageWidth })

/-- The main loop of `run` over the (sorted) input files: label lines
accumulate across files in order; each fully processed file contributes one
document. The first error stops the loop (nothing of the failing file's
document is written, but its partial label lines are). -/
def runFiles (min_image_size : Int) :
    List InputFile →
      List (List Char × List Char) × List AnnotationDoc × Option PipelineError
  | [] => ([], [], none)
  | file :: rest =>
      match processFile file min_image_size with
      | (crops, .error e) => (crops, [], some e)
      | (crops, .ok doc) =>
          match runFiles min_image_size rest with
          | (crops2, docs, err) => (crops ++ crops2, doc :: docs, err)

/-- State of the output path before the run: `os.path.isdir` distinguishes a
directory from everything else; `os.makedirs` fails when the path exists in
any form. -/
inductive PathState where
  | absent
  | isFile
  | isDir
deriving DecidableEq

/-- The configuration of a batch run, with the externally supplied
environment: whether the input path exists, the state of the output path, and
the discovered input files (sorted, dotfiles excluded — file discovery is a
thin I/O wrapper outside the core). -/
structure Config where
  input_path_exists : Bool
  output_path_state : PathState
  files : List InputFile
  min_image_size : Int

/-- Observable outcome of `run`: the error (if any), whether the output
directories were created, whether the shared label file was opened and
whether it was closed, the label lines written, and the documents emitted. -/
structure RunResult where
  error : Option PipelineError
  dirs_created : Bool
  labels_opened : Bool
  labels_closed : Bool
  labels_lines : List (List Char × List Char)
  docs : List AnnotationDoc
deriving DecidableEq

/-- `run(args)` (lines 81–157): validate the input path (`sys.exit` on
missing input), `sys.exit` when the output path is a directory, then
`create_working_directory` — whose `os.makedirs(root)` raises
`FileExistsError` when the output path exists as a non-directory — then open
the label file and run the main loop. `labels.close()` runs only on the
normal exit path: an exception anywhere in the loop propagates out of `run`
with the handle still open. -/
def run (cfg : Config) : RunResult :=
  if cfg.input_path_exists = false then
    { error := some .inputNotFoundError, dirs_created := false
    , labels_opened := false, labels_closed := false
    , labels_lines := [], docs := [] }
  else
    match cfg.output_path_state with
    | .isDir =>
        { error := some .outputAlreadyExistsError, dirs_created := false
        , labels_opened := false, labels_closed := false
        , labels_lines := [], docs := [] }
    | .isFile =>
        { error := some .fileExistsError, dirs_created := false
        , labels_opened := false, labels_closed := false
        , labels_lines := [], docs := [] }
    | .absent =>
        match runFiles cfg.min_image_size cfg.files with
        | (crops, docs, err) =>
            { error := err, dirs_created := true
            , labels_opened := true, labels_closed := err.isNone
            , labels_lines := crops, docs := docs }

/-! ### Helper lemmas: folded min/max of a nonempty sequence -/

theorem foldl_min_le_init (l : List Int) (a : Int) : l.foldl min a ≤ a := by
  induction l generalizing a with
  | nil => exact le_refl a
  | cons x xs ih =>
      exact le_trans (ih (min a x)) (min_le_left a x)

theorem foldl_min_le_mem (l : List Int) (a b : Int) (hb : b ∈ l) :
    l.foldl min a ≤ b := by
  induction l generalizing a with
  | nil => cases hb
  | cons x xs ih =>
      rcases List.mem_cons.mp hb with h | h
      · subst h
        exact le_trans (foldl_min_le_init xs (min a b)) (min_le_right a b)
      · exact ih (min a x) h

theorem foldl_min_eq_init_or_mem (l : List Int) (a : Int) :
    l.foldl min a = a ∨ l.foldl min a ∈ l := by
  induction l generalizing a with
  | nil => exact Or.inl rfl
  | cons x xs ih =>
      rcases ih (min a x) with h | h
      · rcases min_choice a x with hax | hax
        · exact Or.inl (by rw [List.foldl_cons, h, hax])
        · refine Or.inr ?_
          rw [List.foldl_cons, h, hax]
          exact List.mem_cons_self x xs
      · exact Or.inr (List.mem_cons_of_mem x h)

theorem foldl_max_ge_init (l : List Int) (a : Int) : a ≤ l.foldl max a := by
  induction l generalizing a with
  | nil => exact le_refl a
  | cons x xs ih =>
      exact le_trans (le_max_left a x) (ih (max a x))

theorem foldl_max_ge_mem (l : List Int) (a b : Int) (hb : b ∈ l) :
    b ≤ l.foldl max a := by
  induction l generalizing a with
  | nil => cases hb
  | cons x xs ih =>
      rcases List.mem_cons.mp hb with h | h
      · subst h
        exact le_trans (le_max_right a b) (foldl_max_ge_init xs (max a b))
      · exact ih (max a x) h

theorem foldl_max_eq_init_or_mem (l : List Int) (a : Int) :
    l.foldl max a = a ∨ l.foldl max a ∈ l := by
  induction l generalizing a with
  | nil => exact Or.inl rfl
  | cons x xs ih =>
      rcases ih (max a x) with h | h
      · rcases max_choice a x with hax | hax
        · exact Or.inl (by rw [List.foldl_cons, h, hax])
        · refine Or.inr ?_
          rw [List.foldl_cons, h, hax]
          exact List.mem_cons_self x xs
      · exact Or.inr (List.mem_cons_of_mem x h)

/-- Characterization of a successful `get_bbox`: each box side bounds the
corresponding coordinate of every point and is attained by some point. -/
theorem get_bbox_ok_char (points : List Point) (b : Box)
    (h : get_bbox points = .ok b) :
    (∀ p ∈ points, b.left ≤ p.x ∧ b.upper ≤ p.y ∧ p.x ≤ b.right ∧ p.y ≤ b.lower) ∧
    (∃ p ∈ points, p.x = b.left) ∧ (∃ p ∈ points, p.y = b.upper) ∧
    (∃ p ∈ points, p.x = b.right) ∧ (∃ p ∈ points, p.y = b.lower) := by
  match points with
  | [] => simp [get_bbox] at h
  | p :: ps =>
      simp only [get_bbox, Except.ok.injEq] at h
      subst h
      have hxmin : ps.foldl (fun m q => min m q.x) p.x =
          (ps.map Point.x).foldl min p.x := (List.foldl_map Point.x min ps p.x).symm
      have hymin : ps.foldl (fun m q => min m q.y) p.y =
          (ps.map Point.y).foldl min p.y := (List.foldl_map Point.y min ps p.y).symm
      have hxmax : ps.foldl (fun m q => max m q.x) p.x =
          (ps.map Point.x).foldl max p.x := (List.foldl_map Point.x max ps p.x).symm
      have hymax : ps.foldl (fun m q => max m q.y) p.y =
          (ps.map Point.y).foldl max p.y := (List.foldl_map Point.y max ps p.y).symm
      constructor
      · intro q hq
        rcases List.mem_cons.mp hq with h | h
        · subst h
          exact ⟨by rw [hxmin]; exact foldl_min_le_init _ _,
                 by rw [hymin]; exact foldl_min_le_init _ _,
                 by rw [hxmax]; exact foldl_max_ge_init _ _,
                 by rw [hymax]; exact foldl_max_ge_init _ _⟩
        · refine ⟨?_, ?_, ?_, ?_⟩
          · rw [hxmin]
            exact foldl_min_le_mem _ _ _ (List.mem_map_of_mem Point.x h)
          · rw [hymin]
            exact foldl_min_le_mem _ _ _ (List.mem_map_of_mem Point.y h)
          · rw [hxmax]
            exact foldl_max_ge_mem _ _ _ (List.mem_map_of_mem Point.x h)
          · rw [hymax]
            exact foldl_max_ge_mem _ _ _ (List.mem_map_of_mem Point.y h)
      · refine ⟨?_, ?_, ?_, ?_⟩
        · rcases foldl_min_eq_init_or_mem (ps.map Point.x) p.x with h | h
          · exact ⟨p, List.mem_cons_self p ps, by rw [hxmin, h]⟩
          · rw [hxmin] at *
            rcases List.mem_map.mp h with ⟨q, hq, hqx⟩
            exact ⟨q, List.mem_cons_of_mem p hq, hqx⟩
        · rcases foldl_min_eq_init_or_mem (ps.map Point.y) p.y with h | h
          · exact ⟨p, List.mem_cons_self p ps, by rw [hymin, h]⟩
          · rw [hymin] at *
            rcases List.mem_map.mp h with ⟨q, hq, hqy⟩
            exact ⟨q, List.mem_cons_of_mem p hq, hqy⟩
        · rcases foldl_max_eq_init_or_mem (ps.map Point.x) p.x with h | h
          · exact ⟨p, List.mem_cons_self p ps, by rw [hxmax, h]⟩
          · rw [hxmax] at *
            rcases List.mem_map.mp h with ⟨q, hq, hqx⟩
            exact ⟨q, List.mem_cons_of_mem p hq, hqx⟩
        · rcases foldl_max_eq_init_or_mem (ps.map Point.y) p.y with h | h
          · exact ⟨p, List.mem_cons_self p ps, by rw [hymax, h]⟩
          · rw [hymax] at *
            rcases List.mem_map.mp h with ⟨q, hq, hqy⟩
            exact ⟨q, List.mem_cons_of_mem p hq, hqy⟩

/-- `get_bbox` succeeds on every nonempty polygon. -/
theorem get_bbox_ok_of_ne_nil (points : List Point) (h : points ≠ []) :
    ∃ b : Box, get_bbox points = .ok b := by
  match points with
  | [] => exact absurd rfl h
  | p :: ps => exact ⟨_, rfl⟩

/-- The box of a successful `get_bbox` is preserved by permuting (hence also
by reordering or duplicating) the points. -/
theorem get_bbox_perm (points points' : List Point) (b : Box)
    (hperm : List.Perm points points') (h : get_bbox points = .ok b) :
    get_bbox points' = .ok b := by
  have hne' : points' ≠ [] := by
    intro hnil
    subst hnil
    have : points = [] := List.Perm.eq_nil hperm
    subst this
    simp [get_bbox] at h
  obtain ⟨b', hb'⟩ := get_bbox_ok_of_ne_nil points' hne'
  obtain ⟨hbd, ⟨pl, hpl, hplx⟩, ⟨pu, hpu, hpuy⟩, ⟨pr, hpr, hprx⟩, ⟨plo, hplo, hploy⟩⟩ :=
    get_bbox_ok_char points b h
  obtain ⟨hbd', ⟨ql, hql, hqlx⟩, ⟨qu, hqu, hquy⟩, ⟨qr, hqr, hqrx⟩, ⟨qlo, hqlo, hqloy⟩⟩ :=
    get_bbox_ok_char points' b' hb'
  have hmem : ∀ p, p ∈ points ↔ p ∈ points' := fun p => hperm.mem_iff
  have hleft : b'.left = b.left := by
    have h1 : b'.left ≤ b.left := hplx ▸ (hbd' pl ((hmem pl).mp hpl)).1
    have h2 : b.left ≤ b'.left := hqlx ▸ (hbd ql ((hmem ql).mpr hql)).1
    omega
  have hupper : b'.upper = b.upper := by
    have h1 : b'.upper ≤ b.upper := hpuy ▸ (hbd' pu ((hmem pu).mp hpu)).2.1
    have h2 : b.upper ≤ b'.upper := hquy ▸ (hbd qu ((hmem qu).mpr hqu)).2.1
    omega
  have hright : b'.right = b.right := by
    have h1 : b.right ≤ b'.right := hprx ▸ (hbd' pr ((hmem pr).mp hpr)).2.2.1
    have h2 : b'.right ≤ b.right := hqrx ▸ (hbd qr ((hmem qr).mpr hqr)).2.2.1
    omega
  have hlower : b'.lower = b.lower := by
    have h1 : b.lower ≤ b'.lower := hploy ▸ (hbd' plo ((hmem plo).mp hplo)).2.2.2
    have h2 : b'.lower ≤ b.lower := hqloy ▸ (hbd qlo ((hmem qlo).mpr hqlo)).2.2.2
    omega
  have : b' = b := by
    cases b
    cases b'
    simp_all
  rw [hb', this]

/-! ### Claim theorems: BoundingBoxCalculator and CropFilter -/

/-- C1: for every nonempty polygon, `get_bbox` returns the box whose
`left`/`upper` are the minimum x/y over all points and whose `right`/`lower`
are the maximum x/y (each side bounds every point and is attained), and the
result is invariant under reordering of the points. `get_bbox` is a plain
function of its input, so it has no side effects. -/
theorem get_bbox_min_max (points : List Point) (hne : points ≠ []) :
    ∃ b : Box, get_bbox points = .ok b ∧
      (∀ p ∈ points, b.left ≤ p.x ∧ b.upper ≤ p.y ∧ p.x ≤ b.right ∧ p.y ≤ b.lower) ∧
      ((∃ p ∈ points, p.x = b.left) ∧ (∃ p ∈ points, p.y = b.upper) ∧
       (∃ p ∈ points, p.x = b.right) ∧ (∃ p ∈ points, p.y = b.lower)) ∧
      (∀ points' : List Point, List.Perm points points' → get_bbox points' = .ok b) := by
  obtain ⟨b, hb⟩ := get_bbox_ok_of_ne_nil points hne
  obtain ⟨hbd, h1, h2, h3, h4⟩ := get_bbox_ok_char points b hb
  exact ⟨b, hb, hbd, ⟨h1, h2, h3, h4⟩,
    fun points' hperm => get_bbox_perm points points' b hperm hb⟩

/-- Witness for C1 at the concrete polygon `[(3,9), (1,2), (5,4)]`. -/
theorem get_bbox_min_max_witness :
    ∃ b : Box, get_bbox [⟨3, 9⟩, ⟨1, 2⟩, ⟨5, 4⟩] = .ok b ∧
      (∀ p ∈ [Point.mk 3 9, ⟨1, 2⟩, ⟨5, 4⟩],
        b.left ≤ p.x ∧ b.upper ≤ p.y ∧ p.x ≤ b.right ∧ p.y ≤ b.lower) ∧
      ((∃ p ∈ [Point.mk 3 9, ⟨1, 2⟩, ⟨5, 4⟩], p.x = b.left) ∧
       (∃ p ∈ [Point.mk 3 9, ⟨1, 2⟩, ⟨5, 4⟩], p.y = b.upper) ∧
       (∃ p ∈ [Point.mk 3 9, ⟨1, 2⟩, ⟨5, 4⟩], p.x = b.right) ∧
       (∃ p ∈ [Point.mk 3 9, ⟨1, 2⟩, ⟨5, 4⟩], p.y = b.lower)) ∧
      (∀ points' : List Point,
        List.Perm [⟨3, 9⟩, ⟨1, 2⟩, ⟨5, 4⟩] points' → get_bbox points' = .ok b) :=
  get_bbox_min_max [⟨3, 9⟩, ⟨1, 2⟩, ⟨5, 4⟩] (by decide)

/-- C6: `get_bbox` on the empty polygon fails with the error the spec names
`InvalidPolygonError` (Python's `min` raises `ValueError` on an empty
sequence). -/
theorem get_bbox_empty : get_bbox [] = .error .invalidPolygonError := rfl

/-- C2: `valid_crop_size` returns `false` exactly when the width
`right - left` is below `size` or the height `lower - upper` is below `size`;
in particular every degenerate box (`left = right` or `upper = lower`) is
rejected whenever `size > 0`. -/
theorem valid_crop_size_false_iff (b : Box) (size : Int) :
    (valid_crop_size b size = false ↔
      (b.right - b.left < size ∨ b.lower - b.upper < size)) ∧
    ((b.left = b.right ∨ b.upper = b.lower) → 0 < size →
      valid_crop_size b size = false) := by
  constructor
  · simp only [valid_crop_size]
    split
    · rename_i hc
      exact iff_of_true rfl hc
    · rename_i hc
      exact iff_of_false (by simp) hc
  · intro hdeg hpos
    simp only [valid_crop_size]
    split
    · rfl
    · omega

/-- Witness for C2 at the degenerate box `{left 4, upper 0, right 4, lower 9}`
with `size = 16`. -/
theorem valid_crop_size_false_iff_witness :
    valid_crop_size ⟨4, 0, 4, 9⟩ 16 = false :=
  (valid_crop_size_false_iff ⟨4, 0, 4, 9⟩ 16).2 (Or.inl rfl) (by decide)

/-- C8: `valid_crop_size` is monotonic in the box dimensions: for a fixed
`size`, a box at least as wide and at least as tall as an accepted box is
accepted. -/
theorem valid_crop_size_mono (size : Int) (A B : Box)
    (hw : B.right - B.left ≤ A.right - A.left)
    (hh : B.lower - B.upper ≤ A.lower - A.upper)
    (hB : valid_crop_size B size = true) :
    valid_crop_size A size = true := by
  simp only [valid_crop_size] at hB ⊢
  split at hB
  · exact absurd hB (by simp)
  · split
    · omega
    · rfl

/-- Witness for C8: box `{0,0,50,60}` dominates box `{10,10,50,60}` (widths
40 ≥ 40, heights 60 ≥ 50), the latter accepted at `size = 16`. -/
theorem valid_crop_size_mono_witness :
    valid_crop_size ⟨0, 0, 50, 60⟩ 16 = true :=
  valid_crop_size_mono 16 ⟨0, 0, 50, 60⟩ ⟨10, 10, 50, 60⟩
    (by decide) (by decide) (by decide)

/-- C10: acceptance uses strict comparison against `size`: a box whose width
and height both equal `size` exactly is accepted, and when `size ≤ 0` every
well-formed box (`left ≤ right`, `upper ≤ lower`), including degenerate ones,
is accepted. -/
theorem valid_crop_size_boundary (b : Box) (size : Int) :
    (b.right - b.left = size → b.lower - b.upper = size →
      valid_crop_size b size = true) ∧
    (size ≤ 0 → b.left ≤ b.right → b.upper ≤ b.lower →
      valid_crop_size b size = true) := by
  constructor
  · intro hw hh
    simp only [valid_crop_size]
    split
    · omega
    · rfl
  · intro hs hw hh
    simp only [valid_crop_size]
    split
    · omega
    · rfl

/-- Witness for C10: the box `{0,0,16,16}` is accepted at `size = 16`, and
the degenerate box `{5,5,5,5}` is accepted at `size = 0`. -/
theorem valid_crop_size_boundary_witness :
    valid_crop_size ⟨0, 0, 16, 16⟩ 16 = true ∧
    valid_crop_size ⟨5, 5, 5, 5⟩ 0 = true :=
  ⟨(valid_crop_size_boundary ⟨0, 0, 16, 16⟩ 16).1 (by decide) (by decide),
   (valid_crop_size_boundary ⟨5, 5, 5, 5⟩ 0).2 (by decide) (by decide) (by decide)⟩

/-! ### Helper lemmas: Python `str.split` on a single-character separator -/

theorem pySplit_cons_self (c : Char) (as : List Char) :
    pySplit c (c :: as) = [] :: pySplit c as := by
  simp [pySplit]

theorem pySplit_cons_ne (c a : Char) (as : List Char) (h : ¬ a = c) :
    pySplit c (a :: as) =
      match pySplit c as with
      | [] => [[a]]
      | hd :: t => (a :: hd) :: t := by
  simp [pySplit, h]

theorem pySplit_ne_nil (c : Char) (l : List Char) : pySplit c l ≠ [] := by
  induction l with
  | nil => simp [pySplit]
  | cons a as ih =>
      by_cases hac : a = c
      · subst hac
        rw [pySplit_cons_self]
        simp
      · rw [pySplit_cons_ne c a as hac]
        cases hsp : pySplit c as with
        | nil => exact absurd hsp ih
        | cons hd tl => simp

theorem pySplit_single_iff (c : Char) (l x : List Char) :
    pySplit c l = [x] ↔ (l = x ∧ c ∉ x) := by
  induction l generalizing x with
  | nil =>
      constructor
      · intro h
        simp only [pySplit, List.cons.injEq, and_true] at h
        exact ⟨h.symm ▸ rfl, h ▸ (by simp)⟩
      · rintro ⟨rfl, -⟩
        rfl
  | cons a as ih =>
      by_cases hac : a = c
      · subst hac
        rw [pySplit_cons_self]
        constructor
        · intro h
          simp only [List.cons.injEq, and_true] at h
          exact absurd h.2 (pySplit_ne_nil a as)
        · rintro ⟨rfl, hnx⟩
          exact absurd (List.mem_cons_self a as) hnx
      · rw [pySplit_cons_ne c a as hac]
        cases hsp : pySplit c as with
        | nil => exact absurd hsp (pySplit_ne_nil c as)
        | cons h t =>
            constructor
            · intro heq
              simp only [List.cons.injEq, and_true] at heq
              obtain ⟨hx, ht⟩ := heq
              subst ht
              obtain ⟨rfl, hch⟩ := (ih h).mp hsp
              refine ⟨hx, ?_⟩
              intro hmem
              rw [← hx] at hmem
              rcases List.mem_cons.mp hmem with h1 | h1
              · exact hac h1.symm
              · exact hch h1
            · rintro ⟨rfl, hnx⟩
              have hnas : c ∉ as := fun hm => hnx (List.mem_cons_of_mem a hm)
              have h2 : pySplit c as = [as] := (ih as).mpr ⟨rfl, hnas⟩
              rw [hsp] at h2
              simp only [List.cons.injEq, and_true] at h2
              obtain ⟨rfl, rfl⟩ := h2
              rfl

theorem pySplit_two_iff (c : Char) (l n e : List Char) :
    pySplit c l = [n, e] ↔ (l = n ++ c :: e ∧ c ∉ n ∧ c ∉ e) := by
  induction l generalizing n with
  | nil =>
      constructor
      · intro h
        simp [pySplit] at h
      · rintro ⟨h, -, -⟩
        simp at h
  | cons a as ih =>
      by_cases hac : a = c
      · subst hac
        rw [pySplit_cons_self]
        constructor
        · intro h
          simp only [List.cons.injEq] at h
          obtain ⟨hn, hone⟩ := h
          subst hn
          obtain ⟨rfl, hae⟩ := (pySplit_single_iff a as e).mp hone
          exact ⟨rfl, by simp, hae⟩
        · rintro ⟨heq, hn, he⟩
          cases n with
          | nil =>
              simp only [List.nil_append, List.cons.injEq, true_and] at heq
              subst heq
              rw [(pySplit_single_iff a as as).mpr ⟨rfl, he⟩]
          | cons b bs =>
              simp only [List.cons_append, List.cons.injEq] at heq
              exact absurd (heq.1 ▸ List.mem_cons_self b bs) hn
      · rw [pySplit_cons_ne c a as hac]
        cases hsp : pySplit c as with
        | nil => exact absurd hsp (pySplit_ne_nil c as)
        | cons h t =>
            constructor
            · intro heq
              simp only [List.cons.injEq] at heq
              obtain ⟨hx, ht⟩ := heq
              subst ht
              obtain ⟨haseq, hch, hce⟩ := (ih h).mp hsp
              subst hx
              refine ⟨by rw [haseq]; rfl, ?_, hce⟩
              intro hmem
              rcases List.mem_cons.mp hmem with h1 | h1
              · exact hac h1.symm
              · exact hch h1
            · rintro ⟨heq, hn, he⟩
              cases n with
              | nil =>
                  simp only [List.nil_append, List.cons.injEq] at heq
                  exact absurd heq.1 hac
              | cons b bs =>
                  simp only [List.cons_append, List.cons.injEq] at heq
                  obtain ⟨rfl, haseq⟩ := heq
                  have hnbs : c ∉ bs := fun hm => hn (List.mem_cons_of_mem _ hm)
                  have h2 : pySplit c as = [bs, e] := (ih bs).mpr ⟨haseq, hnbs, he⟩
                  rw [hsp] at h2
                  simp only [List.cons.injEq, and_true] at h2
                  obtain ⟨rfl, rfl⟩ := h2
                  rfl

theorem pySplit_length (c : Char) (l : List Char) :
    (pySplit c l).length = l.count c + 1 := by
  induction l with
  | nil => simp [pySplit]
  | cons a as ih =>
      by_cases hac : a = c
      · subst hac
        rw [pySplit_cons_self]
        simp only [List.length_cons, ih, List.count_cons_self]
      · rw [pySplit_cons_ne c a as hac]
        cases hsp : pySplit c as with
        | nil => exact absurd hsp (pySplit_ne_nil c as)
        | cons h t =>
            rw [hsp] at ih
            simp only [List.length_cons] at ih ⊢
            rw [List.count_cons_of_ne (fun hca => hac hca.symm)]
            exact ih

/-- A successful `split_filename` means: the filename is the base name, one
dot, then the extension, with no dot in either part (so the filename has
exactly one dot). -/
theorem split_filename_ok_iff (fn name ext : List Char) :
    split_filename fn = .ok (name, ext) ↔
      (fn = name ++ '.' :: ext ∧ '.' ∉ name ∧ '.' ∉ ext) := by
  constructor
  · intro h
    unfold split_filename at h
    rcases hsp : pySplit '.' fn with _ | ⟨x, _ | ⟨y, _ | ⟨z, t⟩⟩⟩ <;>
      rw [hsp] at h <;> simp only [Except.ok.injEq, Prod.mk.injEq] at h
    · cases h
    · cases h
    · obtain ⟨rfl, rfl⟩ := h
      exact (pySplit_two_iff '.' fn x y).mp hsp
    · cases h
  · intro h
    have h2 : pySplit '.' fn = [name, ext] := (pySplit_two_iff '.' fn name ext).mpr h
    unfold split_filename
    rw [h2]

/-- A filename whose dot count is not exactly one makes the two-variable
unpacking of `split('.')` fail. -/
theorem split_filename_error_of_count (fn : List Char) (h : fn.count '.' ≠ 1) :
    split_filename fn = .error .filenameFormatError := by
  have hlen : (pySplit '.' fn).length ≠ 2 := by
    rw [pySplit_length]
    omega
  unfold split_filename
  rcases hsp : pySplit '.' fn with _ | ⟨x, _ | ⟨y, _ | ⟨z, t⟩⟩⟩
  · rfl
  · rfl
  · rw [hsp] at hlen
    simp at hlen
  · rfl

/-! ### Claim theorems: filename splitting -/

/-- C9 counterexample: on `"a.b.c"` (multiple dots) the split does not yield
base name `"a"`; the two-variable unpacking of `split('.')` raises instead
(three chunks cannot be unpacked into two variables). -/
theorem split_filename_counterexample :
    split_filename "a.b.c".toList = .error .filenameFormatError ∧
    split_filename "a.b.c".toList ≠ .ok ("a".toList, "b.c".toList) := by
  constructor
  · rfl
  · intro h
    have h1 : split_filename "a.b.c".toList =
        Except.error PipelineError.filenameFormatError := rfl
    rw [h1] at h
    exact Except.noConfusion h

/-- C9 (amended): a filename with exactly one dot splits into the text before
it (base name) and after it (extension); a filename with zero or multiple
dots is not split at the first dot — the unpacking of `split('.')` fails with
the error the spec taxonomy names `FilenameFormatError`. -/
theorem split_filename_spec (fn : List Char) :
    (∀ name ext : List Char,
      split_filename fn = .ok (name, ext) ↔
        (fn = name ++ '.' :: ext ∧ '.' ∉ name ∧ '.' ∉ ext)) ∧
    (fn.count '.' ≠ 1 → split_filename fn = .error .filenameFormatError) :=
  ⟨fun name ext => split_filename_ok_iff fn name ext,
   split_filename_error_of_count fn⟩

/-- Witness for C9 (amended) at `"img.png"` (one dot) and `"img"`
(no dot). -/
theorem split_filename_spec_witness :
    split_filename "img.png".toList = .ok ("img".toList, "png".toList) ∧
    split_filename "img".toList = .error .filenameFormatError :=
  ⟨((split_filename_spec "img.png".toList).1 "img".toList "png".toList).mpr
      (by refine ⟨rfl, ?_, ?_⟩ <;> decide),
   (split_filename_spec "img".toList).2 (by decide)⟩

/-! ### Helper lemmas: decimal rendering and crop-filename injectivity -/

/-- One step of reading a decimal digit string back into a number. -/
def decimalStep (acc : Nat) (c : Char) : Nat := 10 * acc + (c.toNat - 48)

/-- Value of a decimal digit string (inverse of `toDecimal` on its range). -/
def ofDecimal (l : List Char) : Nat := l.foldl decimalStep 0

theorem toDecimalAux_irrel (n : Nat) :
    ∀ f₁ f₂ : Nat, n < f₁ → n < f₂ → toDecimalAux f₁ n = toDecimalAux f₂ n := by
  induction n using Nat.strong_induction_on with
  | _ n ih =>
      intro f₁ f₂ h₁ h₂
      cases f₁ with
      | zero => omega
      | succ f₁ =>
          cases f₂ with
          | zero => omega
          | succ f₂ =>
              simp only [toDecimalAux]
              split
              · rfl
              · rename_i h
                have hd : n / 10 < n := Nat.div_lt_self (by omega) (by omega)
                rw [ih (n / 10) hd f₁ f₂ (by omega) (by omega)]

/-- The recurrence `toDecimal` satisfies: peel off the last decimal digit. -/
theorem toDecimal_step (n : Nat) :
    toDecimal n =
      if n < 10 then [Nat.digitChar n]
      else toDecimal (n / 10) ++ [Nat.digitChar (n % 10)] := by
  have h1 : toDecimal n =
      if n < 10 then [Nat.digitChar n]
      else toDecimalAux n (n / 10) ++ [Nat.digitChar (n % 10)] := rfl
  rw [h1]
  split
  · rfl
  · rename_i h
    have hd : n / 10 < n := Nat.div_lt_self (by omega) (by omega)
    rw [toDecimalAux_irrel (n / 10) n (n / 10 + 1) (by omega) (by omega)]
    rfl

theorem digitChar_toNat (d : Nat) (h : d < 10) : (Nat.digitChar d).toNat - 48 = d := by
  interval_cases d <;> rfl

theorem digitChar_ne_dot_underscore (d : Nat) (h : d < 10) :
    Nat.digitChar d ≠ '.' ∧ Nat.digitChar d ≠ '_' := by
  interval_cases d <;> exact ⟨by decide, by decide⟩

theorem ofDecimal_toDecimal (n : Nat) : ofDecimal (toDecimal n) = n := by
  induction n using Nat.strong_induction_on with
  | _ n ih =>
      rw [toDecimal_step]
      split
      · rename_i h
        simp only [ofDecimal, List.foldl_cons, List.foldl_nil, decimalStep]
        rw [digitChar_toNat n h]
        omega
      · rename_i h
        have hdiv : n / 10 < n := Nat.div_lt_self (by omega) (by omega)
        have ih' := ih (n / 10) hdiv
        simp only [ofDecimal] at ih' ⊢
        rw [List.foldl_append, ih']
        simp only [List.foldl_cons, List.foldl_nil, decimalStep]
        rw [digitChar_toNat (n % 10) (Nat.mod_lt n (by omega))]
        omega

theorem ofDecimal_replicate_zero (k : Nat) (l : List Char) :
    ofDecimal (List.replicate k '0' ++ l) = ofDecimal l := by
  induction k with
  | zero => rfl
  | succ k ih =>
      simp only [List.replicate_succ, List.cons_append, ofDecimal, List.foldl_cons]
      have h0 : decimalStep 0 '0' = 0 := rfl
      rw [h0]
      exact ih

theorem ofDecimal_pad3 (n : Nat) : ofDecimal (pad3 n) = n := by
  unfold pad3
  rw [ofDecimal_replicate_zero, ofDecimal_toDecimal]

theorem pad3_injective (m n : Nat) (h : pad3 m = pad3 n) : m = n := by
  rw [← ofDecimal_pad3 m, h, ofDecimal_pad3]

theorem toDecimal_mem (n : Nat) (c : Char) (hc : c ∈ toDecimal n) :
    ∃ d, d < 10 ∧ c = Nat.digitChar d := by
  induction n using Nat.strong_induction_on with
  | _ n ih =>
      rw [toDecimal_step] at hc
      split at hc
      · rename_i h
        rcases List.mem_singleton.mp hc with rfl
        exact ⟨n, h, rfl⟩
      · rename_i h
        rcases List.mem_append.mp hc with hm | hm
        · exact ih (n / 10) (Nat.div_lt_self (by omega) (by omega)) hm
        · rcases List.mem_singleton.mp hm with rfl
          exact ⟨n % 10, Nat.mod_lt n (by omega), rfl⟩

theorem pad3_no_dot_underscore (n : Nat) : '.' ∉ pad3 n ∧ '_' ∉ pad3 n := by
  constructor
  · intro hm
    rcases List.mem_append.mp hm with hm | hm
    · exact absurd (List.eq_of_mem_replicate hm) (by decide)
    · obtain ⟨d, hd, hc⟩ := toDecimal_mem n '.' hm
      exact (digitChar_ne_dot_underscore d hd).1 hc.symm
  · intro hm
    rcases List.mem_append.mp hm with hm | hm
    · exact absurd (List.eq_of_mem_replicate hm) (by decide)
    · obtain ⟨d, hd, hc⟩ := toDecimal_mem n '_' hm
      exact (digitChar_ne_dot_underscore d hd).2 hc.symm

/-- Cancellation around a separator character that occurs in neither left
part: the decomposition `u ++ c :: v` is unique. -/
theorem sep_split (c : Char) (u₁ u₂ v₁ v₂ : List Char) (h1 : c ∉ u₁) (h2 : c ∉ u₂)
    (heq : u₁ ++ c :: v₁ = u₂ ++ c :: v₂) : u₁ = u₂ ∧ v₁ = v₂ := by
  induction u₁ generalizing u₂ with
  | nil =>
      cases u₂ with
      | nil => simpa using heq
      | cons b bs =>
          simp only [List.nil_append, List.cons_append, List.cons.injEq] at heq
          refine absurd ?_ h2
          rw [heq.1]
          exact List.mem_cons_self b bs
  | cons a u ih =>
      cases u₂ with
      | nil =>
          simp only [List.cons_append, List.nil_append, List.cons.injEq] at heq
          refine absurd ?_ h1
          rw [← heq.1]
          exact List.mem_cons_self a u
      | cons b bs =>
          simp only [List.cons_append, List.cons.injEq] at heq
          have hu : c ∉ u := fun hm => h1 (List.mem_cons_of_mem a hm)
          have hbs : c ∉ bs := fun hm => h2 (List.mem_cons_of_mem b hm)
          have := ih bs hu hbs heq.2
          exact ⟨by rw [heq.1, this.1], this.2⟩

/-- The crop filename scheme is injective: two crop filenames built from
dot-free base names and extensions agree only when base name, extension and
sequence index all agree. This is what makes crop filenames unique across a
batch (input filenames are distinct, and a successfully split filename has a
dot-free base name and extension). -/
theorem cropFileName_injective (n₁ e₁ n₂ e₂ : List Char) (j₁ j₂ : Nat)
    (hn₁ : '.' ∉ n₁) (hn₂ : '.' ∉ n₂)
    (h : cropFileName n₁ e₁ j₁ = cropFileName n₂ e₂ j₂) :
    n₁ = n₂ ∧ e₁ = e₂ ∧ j₁ = j₂ := by
  unfold cropFileName at h
  have hre : ∀ (n p e : List Char),
      n ++ '_' :: (p ++ '.' :: e) = (n ++ '_' :: p) ++ '.' :: e := by
    intro n p e
    simp
  rw [hre, hre] at h
  have hd1 : '.' ∉ n₁ ++ '_' :: pad3 j₁ := by
    intro hm
    rcases List.mem_append.mp hm with hm | hm
    · exact hn₁ hm
    · rcases List.mem_cons.mp hm with hm | hm
      · exact absurd hm (by decide)
      · exact (pad3_no_dot_underscore j₁).1 hm
  have hd2 : '.' ∉ n₂ ++ '_' :: pad3 j₂ := by
    intro hm
    rcases List.mem_append.mp hm with hm | hm
    · exact hn₂ hm
    · rcases List.mem_cons.mp hm with hm | hm
      · exact absurd hm (by decide)
      · exact (pad3_no_dot_underscore j₂).1 hm
  obtain ⟨hleft, he⟩ := sep_split '.' _ _ _ _ hd1 hd2 h
  have hrev : (pad3 j₁).reverse ++ '_' :: n₁.reverse =
      (pad3 j₂).reverse ++ '_' :: n₂.reverse := by
    have h2 := congrArg List.reverse hleft
    simp only [List.reverse_append, List.reverse_cons, List.append_assoc,
      List.singleton_append] at h2
    exact h2
  have hu1 : '_' ∉ (pad3 j₁).reverse := by
    rw [List.mem_reverse]
    exact (pad3_no_dot_underscore j₁).2
  have hu2 : '_' ∉ (pad3 j₂).reverse := by
    rw [List.mem_reverse]
    exact (pad3_no_dot_underscore j₂).2
  obtain ⟨hp, hn⟩ := sep_split '_' _ _ _ _ hu1 hu2 hrev
  have hpad : pad3 j₁ = pad3 j₂ := by
    have h2 := congrArg List.reverse hp
    simpa using h2
  have hname : n₁ = n₂ := by
    have h2 := congrArg List.reverse hn
    simpa using h2
  exact ⟨hname, he, pad3_injective j₁ j₂ hpad⟩

/-! ### Helper lemmas: the per-field loop -/

theorem enumFrom_fst_ge {α : Type} (l : List α) :
    ∀ (jj : Nat) (p : Nat × α), p ∈ List.enumFrom jj l → jj ≤ p.1 := by
  induction l with
  | nil =>
      intro jj p hp
      cases hp
  | cons a as ih =>
      intro jj p hp
      rcases List.mem_cons.mp hp with h | h
      · subst h
        exact le_refl jj
      · have := ih (jj + 1) p h
        omega

theorem enumFrom_pairwise {α : Type} (l : List α) :
    ∀ jj : Nat,
      List.Pairwise (fun p q : Nat × α => p.1 < q.1) (List.enumFrom jj l) := by
  induction l with
  | nil =>
      intro jj
      exact List.Pairwise.nil
  | cons a as ih =>
      intro jj
      refine List.Pairwise.cons ?_ (ih (jj + 1))
      intro q hq
      have := enumFrom_fst_ge as (jj + 1) q hq
      show jj < q.1
      omega

/-- On a successful run of the per-field loop, the label lines are exactly
the accepted fields, each named after its pre-filter index. -/
theorem processFieldsAux_ok_crops (name ext : List Char) (minSize : Int)
    (fields : List Field) :
    ∀ (jj : Nat) crops shapes,
      processFieldsAux name ext minSize jj fields = (crops, shapes, none) →
      crops = ((List.enumFrom jj fields).filter
          (fun p => field_accepted p.2 minSize)).map
        (fun p => (cropFileName name ext p.1, p.2.inferText)) := by
  induction fields with
  | nil =>
      intro jj crops shapes h
      simp only [processFieldsAux, Prod.mk.injEq] at h
      rw [← h.1]
      rfl
  | cons f rest ih =>
      intro jj crops shapes h
      simp only [processFieldsAux] at h
      have hcons : List.enumFrom jj (f :: rest) =
          (jj, f) :: List.enumFrom (jj + 1) rest := rfl
      split at h
      · rename_i e hbb
        simp at h
      · rename_i bbox hbb
        have haccv : field_accepted f minSize = valid_crop_size bbox minSize := by
          unfold field_accepted
          rw [hbb]
        split at h
        · rename_i hv
          rcases hrec : processFieldsAux name ext minSize (jj + 1) rest with
            ⟨crops', shapes', err'⟩
          rw [hrec] at h
          simp only [Prod.mk.injEq] at h
          obtain ⟨h1, h2, h3⟩ := h
          subst h3
          have hrest := ih (jj + 1) crops' shapes' hrec
          have hacc : field_accepted f minSize = true := by
            rw [haccv, hv]
          rw [← h1, hcons, List.filter_cons]
          simp only [hacc, if_true, List.map_cons]
          rw [hrest]
        · rename_i hv
          have hrest := ih (jj + 1) crops shapes h
          have hacc : field_accepted f minSize = false := by
            rw [haccv]
            exact Bool.of_not_eq_true hv
          rw [hcons, List.filter_cons]
          simp only [hacc]
          simpa using hrest

/-- The per-field loop appends a label line exactly when it appends a shape:
the two lists stay the same length on every exit, aborted or not. -/
theorem processFieldsAux_lockstep (name ext : List Char) (minSize : Int)
    (fields : List Field) :
    ∀ jj crops shapes err,
      processFieldsAux name ext minSize jj fields = (crops, shapes, err) →
      crops.length = shapes.length := by
  induction fields with
  | nil =>
      intro jj crops shapes err h
      simp only [processFieldsAux, Prod.mk.injEq] at h
      rw [← h.1, ← h.2.1]
      rfl
  | cons f rest ih =>
      intro jj crops shapes err h
      simp only [processFieldsAux] at h
      split at h
      · rename_i e hbb
        simp only [Prod.mk.injEq] at h
        rw [← h.1, ← h.2.1]
        rfl
      · rename_i bbox hbb
        split at h
        · rename_i hv
          rcases hrec : processFieldsAux name ext minSize (jj + 1) rest with
            ⟨crops', shapes', err'⟩
          rw [hrec] at h
          simp only [Prod.mk.injEq] at h
          obtain ⟨h1, h2, h3⟩ := h
          rw [← h1, ← h2]
          simp only [List.length_cons]
          rw [ih (jj + 1) crops' shapes' err' hrec]
        · rename_i hv
          exact ih (jj + 1) crops shapes err h

/-- Every label line the per-field loop writes (also on an aborted run)
carries a filename of the crop-filename scheme. -/
theorem processFieldsAux_crops_mem (name ext : List Char) (minSize : Int)
    (fields : List Field) :
    ∀ jj crops shapes err,
      processFieldsAux name ext minSize jj fields = (crops, shapes, err) →
      ∀ x ∈ crops, ∃ j, x.1 = cropFileName name ext j := by
  induction fields with
  | nil =>
      intro jj crops shapes err h
      simp only [processFieldsAux, Prod.mk.injEq] at h
      rw [← h.1]
      intro x hx
      cases hx
  | cons f rest ih =>
      intro jj crops shapes err h
      simp only [processFieldsAux] at h
      split at h
      · rename_i e hbb
        simp only [Prod.mk.injEq] at h
        rw [← h.1]
        intro x hx
        cases hx
      · rename_i bbox hbb
        split at h
        · rename_i hv
          rcases hrec : processFieldsAux name ext minSize (jj + 1) rest with
            ⟨crops', shapes', err'⟩
          rw [hrec] at h
          simp only [Prod.mk.injEq] at h
          obtain ⟨h1, h2, h3⟩ := h
          rw [← h1]
          intro x hx
          rcases List.mem_cons.mp hx with hx | hx
          · subst hx
            exact ⟨jj, rfl⟩
          · exact ih (jj + 1) crops' shapes' err' hrec x hx
        · rename_i hv
          exact ih (jj + 1) crops shapes err h

/-! ### Helper lemmas: per-file processing and the batch loop -/

/-- For a fixed base name and extension, the crop filename determines the
sequence index. -/
theorem cropFileName_inj_j (n e : List Char) (j₁ j₂ : Nat)
    (h : cropFileName n e j₁ = cropFileName n e j₂) : j₁ = j₂ := by
  unfold cropFileName at h
  have h1 : '_' :: (pad3 j₁ ++ '.' :: e) = '_' :: (pad3 j₂ ++ '.' :: e) :=
    List.append_cancel_left h
  have h2 : pad3 j₁ ++ '.' :: e = pad3 j₂ ++ '.' :: e := by
    injection h1
  obtain ⟨hp, -⟩ := sep_split '.' _ _ _ _
    (pad3_no_dot_underscore j₁).1 (pad3_no_dot_underscore j₂).1 h2
  exact pad3_injective j₁ j₂ hp

/-- Characterization of a fully processed file: the filename split succeeded,
the label lines are the accepted fields named by their pre-filter index, and
the document holds exactly one shape per label line. -/
theorem processFile_ok (file : InputFile) (minSize : Int)
    (crops : List (List Char × List Char)) (doc : AnnotationDoc)
    (h : processFile file minSize = (crops, .ok doc)) :
    ∃ name ext, split_filename file.file_name = .ok (name, ext) ∧
      crops = ((file.fields.enum.filter
          (fun p => field_accepted p.2 minSize)).map
        (fun p => (cropFileName name ext p.1, p.2.inferText))) ∧
      doc.shapes.length = crops.length := by
  unfold processFile at h
  split at h
  · rename_i e hsp
    simp at h
  · rename_i name ext hsp
    split at h
    · rename_i crops' shapes' e hrec
      simp at h
    · rename_i crops' shapes' hrec
      simp only [Prod.mk.injEq, Except.ok.injEq] at h
      obtain ⟨h1, h2⟩ := h
      refine ⟨name, ext, hsp, ?_, ?_⟩
      · rw [← h1]
        exact processFieldsAux_ok_crops name ext minSize file.fields 0
          crops' shapes' hrec
      · rw [← h1, ← h2]
        exact (processFieldsAux_lockstep name ext minSize file.fields 0
          crops' shapes' none hrec).symm

/-- Every label line written while processing a file (also when the file's
per-field loop aborts) carries a crop filename built from that file's
successfully split name and extension. -/
theorem processFile_crops_mem (file : InputFile) (minSize : Int)
    (crops : List (List Char × List Char))
    (res : Except PipelineError AnnotationDoc)
    (h : processFile file minSize = (crops, res)) :
    ∀ x ∈ crops, ∃ name ext j,
      split_filename file.file_name = .ok (name, ext) ∧
      x.1 = cropFileName name ext j := by
  unfold processFile at h
  split at h
  · rename_i e hsp
    simp only [Prod.mk.injEq] at h
    rw [← h.1]
    intro x hx
    cases hx
  · rename_i name ext hsp
    split at h
    · rename_i crops' shapes' e hrec
      simp only [Prod.mk.injEq] at h
      rw [← h.1]
      intro x hx
      obtain ⟨j, hj⟩ :=
        processFieldsAux_crops_mem name ext minSize file.fields 0
          crops' shapes' (some e) hrec x hx
      exact ⟨name, ext, j, hsp, hj⟩
    · rename_i crops' shapes' hrec
      simp only [Prod.mk.injEq] at h
      rw [← h.1]
      intro x hx
      obtain ⟨j, hj⟩ :=
        processFieldsAux_crops_mem name ext minSize file.fields 0
          crops' shapes' none hrec x hx
      exact ⟨name, ext, j, hsp, hj⟩

/-- The label-file filenames of a fully processed file are distinct. -/
theorem processFile_ok_nodup (file : InputFile) (minSize : Int)
    (crops : List (List Char × List Char)) (doc : AnnotationDoc)
    (h : processFile file minSize = (crops, .ok doc)) :
    (crops.map Prod.fst).Nodup := by
  obtain ⟨name, ext, hsp, hcrops, -⟩ := processFile_ok file minSize crops doc h
  rw [hcrops, List.map_map]
  refine List.pairwise_map.mpr ?_
  have hpw : List.Pairwise (fun p q : Nat × Field => p.1 < q.1)
      (file.fields.enum.filter (fun p => field_accepted p.2 minSize)) :=
    List.Pairwise.sublist (List.filter_sublist _) (enumFrom_pairwise file.fields 0)
  refine hpw.imp ?_
  intro p q hlt heq
  have heq' : cropFileName name ext p.1 = cropFileName name ext q.1 := heq
  have := cropFileName_inj_j name ext p.1 q.1 heq'
  omega

/-- Label lines accumulated by the batch loop all come from some input file,
carrying a crop filename built from that file's split name. -/
theorem runFiles_crops_mem (minSize : Int) (files : List InputFile) :
    ∀ crops docs err, runFiles minSize files = (crops, docs, err) →
      ∀ x ∈ crops, ∃ file ∈ files, ∃ name ext j,
        split_filename file.file_name = .ok (name, ext) ∧
        x.1 = cropFileName name ext j := by
  induction files with
  | nil =>
      intro crops docs err h
      simp only [runFiles, Prod.mk.injEq] at h
      rw [← h.1]
      intro x hx
      cases hx
  | cons file rest ih =>
      intro crops docs err h
      simp only [runFiles] at h
      split at h
      · rename_i crops₁ e hpf
        simp only [Prod.mk.injEq] at h
        rw [← h.1]
        intro x hx
        obtain ⟨name, ext, j, hsp, hj⟩ :=
          processFile_crops_mem file minSize crops₁ (.error e) hpf x hx
        exact ⟨file, List.mem_cons_self file rest, name, ext, j, hsp, hj⟩
      · rename_i crops₁ doc hpf
        rcases hrf : runFiles minSize rest with ⟨crops₂, docs₂, err₂⟩
        rw [hrf] at h
        simp only [Prod.mk.injEq] at h
        obtain ⟨h1, h2, h3⟩ := h
        rw [← h1]
        intro x hx
        rcases List.mem_append.mp hx with hx | hx
        · obtain ⟨name, ext, j, hsp, hj⟩ :=
            processFile_crops_mem file minSize crops₁ (.ok doc) hpf x hx
          exact ⟨file, List.mem_cons_self file rest, name, ext, j, hsp, hj⟩
        · obtain ⟨g, hg, name, ext, j, hsp, hj⟩ :=
            ih crops₂ docs₂ err₂ hrf x hx
          exact ⟨g, List.mem_cons_of_mem file hg, name, ext, j, hsp, hj⟩

/-- On a successful batch run, the number of label lines equals the total
number of shapes across the emitted documents. -/
theorem runFiles_ok_counts (minSize : Int) (files : List InputFile) :
    ∀ crops docs, runFiles minSize files = (crops, docs, none) →
      crops.length = (docs.map (fun d => d.shapes.length)).sum := by
  induction files with
  | nil =>
      intro crops docs h
      simp only [runFiles, Prod.mk.injEq] at h
      rw [← h.1, ← h.2.1]
      rfl
  | cons file rest ih =>
      intro crops docs h
      simp only [runFiles] at h
      split at h
      · rename_i crops₁ e hpf
        simp at h
      · rename_i crops₁ doc hpf
        rcases hrf : runFiles minSize rest with ⟨crops₂, docs₂, err₂⟩
        rw [hrf] at h
        simp only [Prod.mk.injEq] at h
        obtain ⟨h1, h2, h3⟩ := h
        subst h3
        obtain ⟨name, ext, -, -, hcount⟩ :=
          processFile_ok file minSize crops₁ doc hpf
        rw [← h1, ← h2]
        simp only [List.length_append, List.map_cons, List.sum_cons]
        rw [ih crops₂ docs₂ hrf, hcount]

/-- On a successful batch run over distinct input filenames, all label-file
filenames are distinct. -/
theorem runFiles_ok_nodup (minSize : Int) (files : List InputFile) :
    ∀ crops docs, runFiles minSize files = (crops, docs, none) →
      (files.map InputFile.file_name).Nodup →
      (crops.map Prod.fst).Nodup := by
  induction files with
  | nil =>
      intro crops docs h hnd
      simp only [runFiles, Prod.mk.injEq] at h
      rw [← h.1]
      exact List.nodup_nil
  | cons file rest ih =>
      intro crops docs h hnd
      simp only [List.map_cons, List.nodup_cons] at hnd
      obtain ⟨hfn, hnd'⟩ := hnd
      simp only [runFiles] at h
      split at h
      · rename_i crops₁ e hpf
        simp at h
      · rename_i crops₁ doc hpf
        rcases hrf : runFiles minSize rest with ⟨crops₂, docs₂, err₂⟩
        rw [hrf] at h
        simp only [Prod.mk.injEq] at h
        obtain ⟨h1, h2, h3⟩ := h
        subst h3
        rw [← h1, List.map_append]
        refine List.Nodup.append
          (processFile_ok_nodup file minSize crops₁ doc hpf)
          (ih crops₂ docs₂ hrf hnd') ?_
        intro a ha₁ ha₂
        obtain ⟨c₁, hc₁, rfl⟩ := List.mem_map.mp ha₁
        obtain ⟨c₂, hc₂, hc₂e⟩ := List.mem_map.mp ha₂
        obtain ⟨name, ext, j, hsp, hj⟩ :=
          processFile_crops_mem file minSize crops₁ (.ok doc) hpf c₁ hc₁
        obtain ⟨g, hg, name', ext', j', hsp', hj'⟩ :=
          runFiles_crops_mem minSize rest crops₂ docs₂ none hrf c₂ hc₂
        have hcc : cropFileName name ext j = cropFileName name' ext' j' := by
          rw [← hj, ← hj', hc₂e]
        obtain ⟨hfe, hdn, -⟩ := (split_filename_ok_iff file.file_name name ext).mp hsp
        obtain ⟨hge, hdn', -⟩ := (split_filename_ok_iff g.file_name name' ext').mp hsp'
        obtain ⟨hne, hee, -⟩ :=
          cropFileName_injective name ext name' ext' j j' hdn hdn' hcc
        refine hfn ?_
        have : file.file_name = g.file_name := by
          rw [hfe, hge, hne, hee]
        rw [this]
        exact List.mem_map_of_mem InputFile.file_name hg

/-! ### Claim theorems: crop filenames, label/shape sync, run behaviour -/

/-- C3: every fully processed file's label lines are exactly the accepted
fields, each named `{baseName}_{index:03d}.{ext}` by its pre-filter index in
the recognition result (numbering restarts at 0 per image and skips rejected
fields); the accepted indices are strictly increasing per image; and across a
successful batch over distinct input filenames all crop filenames are
distinct. -/
theorem crop_filename_scheme :
    (∀ (file : InputFile) (minSize : Int) crops doc,
       processFile file minSize = (crops, Except.ok doc) →
       ∃ name ext, split_filename file.file_name = Except.ok (name, ext) ∧
         crops = ((file.fields.enum.filter
             (fun p => field_accepted p.2 minSize)).map
           (fun p => (cropFileName name ext p.1, p.2.inferText)))) ∧
    (∀ (fields : List Field) (minSize : Int),
       List.Pairwise (· < ·)
         ((fields.enum.filter
             (fun p => field_accepted p.2 minSize)).map Prod.fst)) ∧
    (∀ (minSize : Int) (files : List InputFile) crops docs,
       runFiles minSize files = (crops, docs, none) →
       (files.map InputFile.file_name).Nodup →
       (crops.map Prod.fst).Nodup) := by
  refine ⟨?_, ?_, ?_⟩
  · intro file minSize crops doc h
    obtain ⟨name, ext, hsp, hcrops, -⟩ := processFile_ok file minSize crops doc h
    exact ⟨name, ext, hsp, hcrops⟩
  · intro fields minSize
    refine List.pairwise_map.mpr ?_
    exact List.Pairwise.sublist (List.filter_sublist _) (enumFrom_pairwise fields 0)
  · intro minSize files crops docs h hnd
    exact runFiles_ok_nodup minSize files crops docs h hnd

/-- A one-field example input used by witnesses. -/
def exampleField : Field :=
  ⟨"ab".toList, [⟨0, 0⟩, ⟨20, 0⟩, ⟨20, 20⟩, ⟨0, 20⟩]⟩

/-- An example input file used by witnesses. -/
def exampleFile : InputFile := ⟨"img.png".toList, [exampleField], 640, 480⟩

/-- The shape the per-field loop builds for `exampleField`. -/
def exampleShape : Shape :=
  ⟨"ab".toList, [[0, 0], [20, 20]], none, "rectangle".toList⟩

/-- The document `processFile` emits for `exampleFile`. -/
def exampleDoc : AnnotationDoc :=
  ⟨"4.5.9".toList, "rectangle".toList, [exampleShape], "img.png".toList,
   none, 480, 640⟩

/-- Witness for C3 at `exampleFile` with `min_image_size = 16`. -/
theorem crop_filename_scheme_witness :
    ∃ name ext, split_filename exampleFile.file_name = Except.ok (name, ext) ∧
      [("img_000.png".toList, "ab".toList)] =
        ((exampleFile.fields.enum.filter
            (fun p => field_accepted p.2 16)).map
          (fun p => (cropFileName name ext p.1, p.2.inferText))) :=
  crop_filename_scheme.1 exampleFile 16
    [("img_000.png".toList, "ab".toList)] exampleDoc rfl

/-- C4: the number of label lines equals the number of shapes across the
emitted documents — at the end of every successful batch run, after each
fully processed image, and, underlying both, the per-field loop appends a
label line exactly when it appends a shape, both driven by the one
`valid_crop_size` decision. -/
theorem labels_shapes_in_sync :
    (∀ cfg : Config, (run cfg).error = none →
       (run cfg).labels_lines.length =
         ((run cfg).docs.map (fun d => d.shapes.length)).sum) ∧
    (∀ (minSize : Int) (files : List InputFile) crops docs,
       runFiles minSize files = (crops, docs, none) →
       crops.length = (docs.map (fun d => d.shapes.length)).sum) ∧
    (∀ (file : InputFile) (minSize : Int) crops doc,
       processFile file minSize = (crops, Except.ok doc) →
       crops.length = doc.shapes.length) ∧
    (∀ (name ext : List Char) (minSize : Int) (jj : Nat) (fields : List Field)
       crops shapes err,
       processFieldsAux name ext minSize jj fields = (crops, shapes, err) →
       crops.length = shapes.length) := by
  refine ⟨?_, ?_, ?_, ?_⟩
  · intro cfg herr
    obtain ⟨inp, outs, files, msize⟩ := cfg
    unfold run at herr ⊢
    rcases inp with _ | _
    · simp at herr
    · have hne : ¬(true = false) := by decide
      rw [if_neg hne] at herr ⊢
      rcases outs with _ | _ | _
      · rcases hrun : runFiles msize files with ⟨crops, docs, err⟩
        rw [hrun] at herr
        simp only at herr ⊢
        subst herr
        exact runFiles_ok_counts msize files crops docs hrun
      · simp at herr
      · simp at herr
  · intro minSize files crops docs h
    exact runFiles_ok_counts minSize files crops docs h
  · intro file minSize crops doc h
    obtain ⟨name, ext, -, -, hcount⟩ := processFile_ok file minSize crops doc h
    exact hcount.symm
  · intro name ext minSize jj fields crops shapes err h
    exact processFieldsAux_lockstep name ext minSize fields jj crops shapes err h

/-- Witness for C4 at a one-file, one-field batch. -/
theorem labels_shapes_in_sync_witness :
    (run ⟨true, PathState.absent, [exampleFile], 16⟩).labels_lines.length =
      ((run ⟨true, PathState.absent, [exampleFile], 16⟩).docs.map
        (fun d => d.shapes.length)).sum :=
  labels_shapes_in_sync.1 ⟨true, PathState.absent, [exampleFile], 16⟩ rfl

/-- C5 counterexample: with an input path that exists and an output path that
exists as a regular (non-directory) file, `os.path.isdir` is false, so `run`
does not fail with `OutputAlreadyExistsError` — it reaches
`create_working_directory`, whose `os.makedirs` raises `FileExistsError`
instead (still before creating any directory or writing any file). -/
theorem output_exists_counterexample :
    (run ⟨true, PathState.isFile, [], 16⟩).error =
      some PipelineError.fileExistsError ∧
    some PipelineError.fileExistsError ≠
      some PipelineError.outputAlreadyExistsError :=
  ⟨rfl, by decide⟩

/-- C5 (amended): when the input path exists and the output path exists as a
directory, `run` fails with `OutputAlreadyExistsError` and performs no
filesystem effect at all (no directory created, no file opened or written);
when the output path exists as a non-directory file it fails with
`FileExistsError`, likewise before any effect; and the output subdirectories
are created only when both the input check and the output check pass. Since a
completed run leaves the output path as a directory, a second invocation
against the same output path fails and writes nothing new. -/
theorem output_exists_behavior (cfg : Config) :
    (cfg.input_path_exists = true → cfg.output_path_state = PathState.isDir →
       run cfg = { error := some PipelineError.outputAlreadyExistsError
                 , dirs_created := false, labels_opened := false
                 , labels_closed := false, labels_lines := [], docs := [] }) ∧
    (cfg.input_path_exists = true → cfg.output_path_state = PathState.isFile →
       run cfg = { error := some PipelineError.fileExistsError
                 , dirs_created := false, labels_opened := false
                 , labels_closed := false, labels_lines := [], docs := [] }) ∧
    ((run cfg).dirs_created = true →
       cfg.input_path_exists = true ∧
       cfg.output_path_state = PathState.absent) := by
  obtain ⟨inp, outs, files, msize⟩ := cfg
  refine ⟨?_, ?_, ?_⟩
  · intro hin hop
    simp only at hin hop
    subst hin
    subst hop
    rfl
  · intro hin hop
    simp only at hin hop
    subst hin
    subst hop
    rfl
  · intro hd
    rcases inp with _ | _
    · simp [run] at hd
    · rcases outs with _ | _ | _
      · exact ⟨rfl, rfl⟩
      · simp [run] at hd
      · simp [run] at hd

/-- Witness for C5 (amended) at concrete configurations covering the three
branches. -/
theorem output_exists_behavior_witness :
    run ⟨true, PathState.isDir, [], 16⟩ =
      { error := some PipelineError.outputAlreadyExistsError
      , dirs_created := false, labels_opened := false
      , labels_closed := false, labels_lines := [], docs := [] } ∧
    run ⟨true, PathState.isFile, [], 16⟩ =
      { error := some PipelineError.fileExistsError
      , dirs_created := false, labels_opened := false
      , labels_closed := false, labels_lines := [], docs := [] } ∧
    ((⟨true, PathState.absent, [], 16⟩ : Config).input_path_exists = true ∧
      (⟨true, PathState.absent, [], 16⟩ : Config).output_path_state =
        PathState.absent) :=
  ⟨(output_exists_behavior ⟨true, PathState.isDir, [], 16⟩).1 rfl rfl,
   (output_exists_behavior ⟨true, PathState.isFile, [], 16⟩).2.1 rfl rfl,
   (output_exists_behavior ⟨true, PathState.absent, [], 16⟩).2.2 rfl⟩

/-- C7 failing run: two input files, the second without a dot in its name.
The first file is fully processed, then `file_name.split('.')` raises; `run`
has no `try`/`finally` around the loop, so `labels.close()` (line 154) is
never reached: the batch aborts with the label file still open, contradicting
the claim that the handle is closed on every exit path. -/
theorem labels_left_open_on_error :
    (run ⟨true, PathState.absent,
        [⟨"a.png".toList, [], 100, 100⟩, ⟨"noext".toList, [], 100, 100⟩],
        16⟩).labels_opened = true ∧
    (run ⟨true, PathState.absent,
        [⟨"a.png".toList, [], 100, 100⟩, ⟨"noext".toList, [], 100, 100⟩],
        16⟩).error = some PipelineError.filenameFormatError ∧
    (run ⟨true, PathState.absent,
        [⟨"a.png".toList, [], 100, 100⟩, ⟨"noext".toList, [], 100, 100⟩],
        16⟩).labels_closed = false :=
  ⟨rfl, rfl, rfl⟩

end Clova
